import Mathlib

/-!
Verification of the `PriorityQueue` container from
`task5_David_Cohen/include/PriorityQueue.h`.

The header defines three things, all embedded below:
* `MyComparator<T>` — a comparator struct whose `operator()(val1, val2)`
  returns `val1 - val2`;
* `EmptyPriorityQueue` — an exception whose `what()` is
  `"PriorityQueue is empty!"`;
* `PriorityQueue<T>` — a `std::list<T> _data` ordered by the fixed member
  `MyComparator<T> _compare`, with `push` (linear scan insert) and `poll`
  (pop front or throw).

The embedding keeps `_data` as a Lean `List`, front at the head.  The
template's generic operations are parametrised by the comparator signal
`cmp : α → α → Int`, standing for the value of `_compare(a, b)` as it is
read by the signed comparisons `< 0` in the source.
-/

namespace PQ

/-- `MyComparator<T>::operator()` at a signed numeric instantiation with
exact subtraction (modelled by `Int`): returns `val1 - val2`. -/
def MyComparator (val1 val2 : Int) : Int :=
  val1 - val2

/-- `MyComparator<T>::operator()` at an unsigned `w`-bit integer
instantiation: C++ unsigned subtraction wraps modulo `2 ^ w`, so the
result is the unsigned value `(val1 - val2) mod 2 ^ w`. -/
def MyComparatorUnsigned (w val1 val2 : Nat) : Nat :=
  (val1 % 2 ^ w + 2 ^ w - val2 % 2 ^ w) % 2 ^ w

/-- The exception kinds of the program: only `EmptyPriorityQueue`. -/
inductive QueueError where
  | emptyPriorityQueue
  deriving DecidableEq

/-- `EmptyPriorityQueue::what()`. -/
def QueueError.what : QueueError → String
  | .emptyPriorityQueue => "PriorityQueue is empty!"

/-- `PriorityQueue<T>::push`: starting at `_data.begin()`, advance the
iterator while `_compare(*it, t) < 0`, then `insert(it, t)` (insert
before the iterator's position). -/
def push (cmp : α → α → Int) : List α → α → List α
  | [], t => [t]
  | e :: rest, t =>
    if cmp e t < 0 then e :: push cmp rest t else t :: e :: rest

/-- `PriorityQueue<T>::poll` as a state transformer on `_data`: on an
empty queue it throws `EmptyPriorityQueue` before touching `_data`;
otherwise it removes and returns the front element. -/
def pollSt (q : List α) : Except QueueError α × List α :=
  match q with
  | [] => (.error .emptyPriorityQueue, q)
  | e :: rest => (.ok e, rest)

/-- Pushing a list of values, left to right, into an initially empty
`PriorityQueue<int>` (the default-comparator instantiation). -/
def pushList (vs : List Int) : List Int :=
  vs.foldl (push MyComparator) []

/-- `n` successive `poll` calls, collecting every result (success or
error) in order together with the final queue state. -/
def pollTimes : Nat → List α → List (Except QueueError α) × List α
  | 0, q => ([], q)
  | n + 1, q =>
    let r := pollSt q
    let rest := pollTimes n r.2
    (r.1 :: rest.1, rest.2)

/-- The adjacent-pair ordering signal of the `int` instantiation:
`compare(a, b) ≤ 0`, i.e. the pair `(a, b)` is non-decreasing. -/
def leC (a b : Int) : Prop :=
  MyComparator a b ≤ 0

instance (a b : Int) : Decidable (leC a b) :=
  inferInstanceAs (Decidable (MyComparator a b ≤ 0))

/-- Queue states of the `int` instantiation reachable from a freshly
constructed (empty) queue by any interleaving of pushes and polls. -/
inductive Reachable : List Int → Prop where
  | start : Reachable []
  | doPush {l : List Int} (v : Int) : Reachable l → Reachable (push MyComparator l v)
  | doPoll {l : List Int} : Reachable l → Reachable (pollSt l).2

/-- The comparator signal obtained by instantiating the template at a
pair type `{int key; int tag;}` whose subtraction (hence
`MyComparator`) compares only the `key` component, the `tag` being
inert identity data: `compare(a, b)` reads as `a.key - b.key`.  Two
distinct values can then have equal comparator rank. -/
def keyCmp (a b : Int × Int) : Int :=
  a.1 - b.1

/-- The state of `PriorityQueue<int>` as declared in the source: the
only data member besides the stateless fixed `MyComparator<int>
_compare` is `_data`; no constructor parameter exists. -/
structure PriorityQueueInt where
  _data : List Int

/-- `PriorityQueue<int>::push` on the structure state. -/
def PriorityQueueInt.push (q : PriorityQueueInt) (t : Int) : PriorityQueueInt :=
  ⟨PQ.push MyComparator q._data t⟩

/-- Modelled from the spec: `OrderedQueue` as the spec words it — the
caller supplies the comparator at construction time, the queue stores
it by value for its lifetime, and the stored comparator is the one
used by every subsequent push. -/
structure OrderedQueueSpec where
  _data : List Int
  compare : Int → Int → Int

/-- Modelled from the spec: construction of an `OrderedQueue` with a
caller-supplied comparator and empty initial sequence. -/
def OrderedQueueSpec.mkQueue (c : Int → Int → Int) : OrderedQueueSpec :=
  ⟨[], c⟩

/-- Modelled from the spec: `OrderedQueue.push` uses the stored,
caller-supplied comparator. -/
def OrderedQueueSpec.push (q : OrderedQueueSpec) (t : Int) : OrderedQueueSpec :=
  ⟨PQ.push q.compare q._data t, q.compare⟩

/-! ### Helper lemmas -/

theorem push_eq_takeWhile (cmp : α → α → Int) (l : List α) (v : α) :
    push cmp l v =
      l.takeWhile (fun e => decide (cmp e v < 0)) ++
        v :: l.dropWhile (fun e => decide (cmp e v < 0)) := by
  induction l with
  | nil => rfl
  | cons e rest ih =>
    by_cases h : cmp e v < 0
    · simp [push, h, List.takeWhile, List.dropWhile, ih]
    · simp [push, h, List.takeWhile, List.dropWhile]

theorem push_perm (cmp : α → α → Int) (l : List α) (v : α) :
    (push cmp l v).Perm (v :: l) := by
  induction l with
  | nil => simp [push]
  | cons e rest ih =>
    by_cases h : cmp e v < 0
    · simp only [push, if_pos h]
      exact (ih.cons e).trans (List.Perm.swap v e rest)
    · simp [push, if_neg h]

theorem push_chain' (cmp : α → α → Int)
    (hA : ∀ a b : α, ¬ cmp a b < 0 → cmp b a ≤ 0)
    (l : List α) (v : α)
    (hl : l.Chain' (fun a b => cmp a b ≤ 0)) :
    (push cmp l v).Chain' (fun a b => cmp a b ≤ 0) := by
  induction l with
  | nil => simp [push]
  | cons e rest ih =>
    by_cases h : cmp e v < 0
    · simp only [push, if_pos h]
      have hrest := ih (List.Chain'.tail hl)
      apply List.Chain'.cons'
      · exact hrest
      · intro y hy
        cases rest with
        | nil =>
          simp [push] at hy
          subst hy
          exact le_of_lt h
        | cons f rfs =>
          by_cases hf : cmp f v < 0
          · simp only [push, if_pos hf, List.head?_cons, Option.mem_def,
              Option.some.injEq] at hy
            subst hy
            exact List.chain'_cons.mp hl |>.1
          · simp only [push, if_neg hf, List.head?_cons, Option.mem_def,
              Option.some.injEq] at hy
            subst hy
            exact le_of_lt h
    · simp only [push, if_neg h]
      exact List.Chain'.cons (hA e v h) hl

theorem pollSt_chain' (l : List Int)
    (hl : l.Chain' leC) : ((pollSt l).2).Chain' leC := by
  cases l with
  | nil => exact hl
  | cons e rest => exact List.Chain'.tail hl

theorem myComparator_antisym (a b : Int) (h : ¬ MyComparator a b < 0) :
    MyComparator b a ≤ 0 := by
  unfold MyComparator at *
  omega

theorem foldl_push_chain' (vs : List Int) (l : List Int)
    (hl : l.Chain' leC) :
    (vs.foldl (push MyComparator) l).Chain' leC := by
  induction vs generalizing l with
  | nil => simpa using hl
  | cons v vs ih =>
    simp only [List.foldl_cons]
    exact ih _ (push_chain' MyComparator myComparator_antisym l v hl)

theorem foldl_push_perm (cmp : α → α → Int) (vs : List α) (l : List α) :
    (vs.foldl (push cmp) l).Perm (vs ++ l) := by
  induction vs generalizing l with
  | nil => simp
  | cons v vs ih =>
    simp only [List.foldl_cons, List.cons_append]
    exact ((ih (push cmp l v)).trans
      ((List.Perm.append_left vs (push_perm cmp l v)).trans
        List.perm_middle)).trans (List.Perm.refl _)

theorem pollTimes_full (l : List α) :
    pollTimes l.length l = (l.map Except.ok, []) := by
  induction l with
  | nil => rfl
  | cons e rest ih =>
    simp [pollTimes, pollSt, ih]

theorem push_append_of_lt (cmp : α → α → Int) (l1 l2 : List α) (v : α)
    (h : ∀ e ∈ l1, cmp e v < 0) :
    push cmp (l1 ++ l2) v = l1 ++ push cmp l2 v := by
  induction l1 with
  | nil => rfl
  | cons e rest ih =>
    simp only [List.cons_append, push, if_pos (h e (List.mem_cons_self e rest))]
    exact congrArg (List.cons e) (ih fun x hx => h x (List.mem_cons_of_mem e hx))

theorem head_dropWhile_not (p : α → Bool) (l : List α) (e : α)
    (h : (l.dropWhile p).head? = some e) : p e = false := by
  induction l with
  | nil => exact Option.noConfusion h
  | cons f rest ih =>
    rw [List.dropWhile_cons] at h
    by_cases hf : p f = true
    · rw [if_pos hf] at h
      exact ih h
    · rw [if_neg hf] at h
      rw [List.head?_cons] at h
      have hfe : f = e := Option.some.inj h
      subst hfe
      simpa using hf

theorem foldl_spec_push (vs : List Int) (d : List Int) (c : Int → Int → Int) :
    vs.foldl OrderedQueueSpec.push ⟨d, c⟩ = ⟨vs.foldl (push c) d, c⟩ := by
  induction vs generalizing d with
  | nil => rfl
  | cons v vs ih => simp only [List.foldl_cons, OrderedQueueSpec.push, ih]

theorem foldl_code_push (vs : List Int) (d : List Int) :
    vs.foldl PriorityQueueInt.push ⟨d⟩ = ⟨vs.foldl (push MyComparator) d⟩ := by
  induction vs generalizing d with
  | nil => rfl
  | cons v vs ih => simp only [List.foldl_cons, PriorityQueueInt.push, ih]

/-! ### Claim theorems -/

/-- C1: for every sequence of pushes (with the queue's default comparator,
`int` instantiation), after any prefix of pushes the internal sequence
read front-to-back is non-decreasing under the comparator — every
adjacent pair `(a, b)` has `compare(a, b) ≤ 0` — and this invariant is
preserved by every push and every poll. -/
theorem ordering_invariant (vs : List Int) (l : List Int) (v : Int)
    (hl : l.Chain' leC) :
    (pushList vs).Chain' leC ∧
      (push MyComparator l v).Chain' leC ∧
      ((pollSt l).2).Chain' leC :=
  ⟨foldl_push_chain' vs [] List.chain'_nil,
    push_chain' MyComparator myComparator_antisym l v hl,
    pollSt_chain' l hl⟩

theorem ordering_invariant_witness :
    (pushList [5, 1, 3]).Chain' leC ∧
      (push MyComparator [1, 3] 2).Chain' leC ∧
      ((pollSt [1, 3]).2).Chain' leC :=
  ordering_invariant [5, 1, 3] [1, 3] 2
    (List.chain'_cons.mpr ⟨by norm_num [leC, MyComparator], List.chain'_singleton 3⟩)

/-- C2 counterexample: the spec's literal adjacent-pair invariant
`compare(a, b) ≥ 0` (for `a` earlier, `b` later) is false: the
reachable state after pushing 1 then 2 is `[1, 2]`, whose adjacent pair
has `compare(1, 2) = -1 < 0`. -/
theorem literal_invariant_false :
    ¬ ∀ vs : List Int, (pushList vs).Chain' fun a b => 0 ≤ MyComparator a b := by
  intro h
  have h12 := h [1, 2]
  rw [show pushList [1, 2] = [1, 2] by decide] at h12
  have hadj := (List.chain'_cons.mp h12).1
  revert hadj
  decide

/-- C2 amended: in every reachable queue state, every adjacent pair
`(a, b)` (with `a` earlier, `b` later) satisfies `compare(a, b) ≤ 0` —
the sequence is non-decreasing, with the inequality in this direction,
not `compare(a, b) ≥ 0` as literally written. -/
theorem reachable_nondecreasing (l : List Int) (h : Reachable l) :
    l.Chain' leC := by
  induction h with
  | start => exact List.chain'_nil
  | doPush v _ ih => exact push_chain' MyComparator myComparator_antisym _ v ih
  | doPoll _ ih => exact pollSt_chain' _ ih

theorem reachable_nondecreasing_witness :
    (push MyComparator (push MyComparator [] 1) 2).Chain' leC :=
  reachable_nondecreasing _ (Reachable.doPush 2 (Reachable.doPush 1 Reachable.start))

/-- C3 counterexample: pushing two comparator-equal values `a = (0, 0)`
then `b = (0, 1)` (rank is the first component; `compare(a, b) = 0`)
leaves `b` in front of `a`, so `b` — the later push — is polled first,
refuting stability (`a` polled before `b`) at this input. -/
theorem stability_false :
    keyCmp (0, 0) (0, 1) = 0 ∧
      push keyCmp (push keyCmp [] (0, 0)) (0, 1) = [(0, 1), (0, 0)] ∧
      (pollSt (push keyCmp (push keyCmp [] (0, 0)) (0, 1))).1 = Except.ok (0, 1) :=
  ⟨by decide, by decide, rfl⟩

/-- C3 amended: pushing two values of equal comparator rank in order
`a` then `b` inserts `b` immediately *before* `a` (before the whole
run of existing equal-rank elements), so equal-rank elements are
polled in *reverse* insertion order: `b` before `a`. -/
theorem push_equal_reverse_order (l : List (Int × Int)) (a b : Int × Int)
    (h : keyCmp a b = 0) :
    push keyCmp (push keyCmp l a) b =
      l.takeWhile (fun e => decide (keyCmp e a < 0)) ++
        b :: a :: l.dropWhile (fun e => decide (keyCmp e a < 0)) := by
  have hab : a.1 = b.1 := by
    unfold keyCmp at h
    omega
  have hcmp : ∀ e : Int × Int, keyCmp e b = keyCmp e a := by
    intro e
    unfold keyCmp
    omega
  rw [push_eq_takeWhile keyCmp l a]
  rw [push_append_of_lt keyCmp _ _ b ?hpre]
  case hpre =>
    intro e he
    have hmem := List.mem_takeWhile_imp he
    rw [hcmp e]
    simpa using hmem
  have hstop : ¬ keyCmp a b < 0 := by
    rw [h]
    omega
  simp only [push, if_neg hstop]

theorem push_equal_reverse_order_witness :
    push keyCmp (push keyCmp ([(-1, 5), (3, 7)] : List (Int × Int)) (0, 0)) (0, 1) =
      ([(-1, 5), (3, 7)] : List (Int × Int)).takeWhile
          (fun e => decide (keyCmp e (0, 0) < 0)) ++
        (0, 1) :: (0, 0) :: ([(-1, 5), (3, 7)] : List (Int × Int)).dropWhile
          (fun e => decide (keyCmp e (0, 0) < 0)) :=
  push_equal_reverse_order [(-1, 5), (3, 7)] (0, 0) (0, 1) (by decide)

/-- C4: on the empty queue, `poll` fails with `EmptyPriorityQueue`
whose message is exactly "PriorityQueue is empty!" and leaves the state
unchanged (still empty); on any non-empty queue, `poll` never returns
this (or any) error. -/
theorem poll_empty_error (q : List Int) (hq : q ≠ []) :
    pollSt ([] : List Int) = (Except.error QueueError.emptyPriorityQueue, []) ∧
      QueueError.what QueueError.emptyPriorityQueue = "PriorityQueue is empty!" ∧
      ∀ err : QueueError, (pollSt q).1 ≠ Except.error err := by
  refine ⟨rfl, rfl, ?_⟩
  cases q with
  | nil => exact absurd rfl hq
  | cons e rest =>
    intro err hcontra
    exact Except.noConfusion hcontra

theorem poll_empty_error_witness :
    pollSt ([] : List Int) = (Except.error QueueError.emptyPriorityQueue, []) ∧
      QueueError.what QueueError.emptyPriorityQueue = "PriorityQueue is empty!" ∧
      ∀ err : QueueError, (pollSt [(3 : Int)]).1 ≠ Except.error err :=
  poll_empty_error [3] (by decide)

/-- C5: `push` inserts `v` immediately before the first element `e`
(scanning from the front) for which `compare(e, v) < 0` is false: the
result is the run of leading strictly-less elements, then `v`, then the
rest, where the first element of the rest (when present) is not
strictly less than `v`. -/
theorem push_insert_position (cmp : α → α → Int) (l : List α) (v : α) :
    push cmp l v =
      l.takeWhile (fun e => decide (cmp e v < 0)) ++
        v :: l.dropWhile (fun e => decide (cmp e v < 0)) ∧
      (∀ e ∈ l.takeWhile fun e => decide (cmp e v < 0), cmp e v < 0) ∧
      ∀ e, (l.dropWhile fun e => decide (cmp e v < 0)).head? = some e →
        ¬ cmp e v < 0 := by
  refine ⟨push_eq_takeWhile cmp l v, ?_, ?_⟩
  · intro e he
    simpa using List.mem_takeWhile_imp he
  · intro e he
    have hd := head_dropWhile_not _ _ _ he
    simpa using hd

/-- C6: starting from an empty queue, after pushing the values `vs`
(n pushes) the queue holds exactly n elements, n successive polls all
succeed and return exactly the pushed multiset — a permutation of `vs`,
each value exactly once — as a non-decreasing sequence under the
comparator, and the queue is empty afterward. -/
theorem pushes_then_polls_conservation (vs : List Int) :
    (pushList vs).length = vs.length ∧
      pollTimes vs.length (pushList vs) = ((pushList vs).map Except.ok, []) ∧
      (pushList vs).Perm vs ∧
      (pushList vs).Chain' leC := by
  have hperm : (pushList vs).Perm vs := by
    simpa using foldl_push_perm MyComparator vs []
  have hlen : (pushList vs).length = vs.length := hperm.length_eq
  refine ⟨hlen, ?_, hperm, foldl_push_chain' vs [] List.chain'_nil⟩
  rw [← hlen]
  exact pollTimes_full _

/-- C7: the default comparator returns `a - b`, and with exact integer
subtraction its result is negative exactly when `a < b`, positive
exactly when `a > b`, and zero exactly when `a = b`. -/
theorem myComparator_three_way (a b : Int) :
    (MyComparator a b < 0 ↔ a < b) ∧
      (0 < MyComparator a b ↔ b < a) ∧
      (MyComparator a b = 0 ↔ a = b) := by
  unfold MyComparator
  omega

/-- C8: at an unsigned `w`-bit instantiation the comparator value
`(a - b) mod 2 ^ w` is never a negative signal, so the push scan
condition `compare(*it, value) < 0` never holds and every push inserts
at the front. -/
theorem unsigned_comparator_no_negative (w val1 val2 : Nat) (l : List Nat) (v : Nat) :
    ¬ ((MyComparatorUnsigned w val1 val2 : Int) < 0) ∧
      push (fun a b => (MyComparatorUnsigned w a b : Int)) l v = v :: l := by
  constructor
  · exact Int.not_lt.mpr (Int.natCast_nonneg _)
  · cases l with
    | nil => rfl
    | cons e rest =>
      have hne : ¬ ((MyComparatorUnsigned w e v : Int) < 0) :=
        Int.not_lt.mpr (Int.natCast_nonneg _)
      simp only [push, if_neg hne]

/-- C9 counterexample: the queue does not use a caller-supplied
comparator — `PriorityQueue` fixes `MyComparator` as a member and has
no comparator constructor argument.  With the supplied (reversed)
comparator `fun x y => y - x`, the spec's `OrderedQueue` pushes 2 onto
`[1]` giving `[2, 1]`, while the code gives `[1, 2]`. -/
theorem supplied_comparator_unused :
    ¬ ∀ (c : Int → Int → Int) (l : List Int) (v : Int),
        (PriorityQueueInt.push ⟨l⟩ v)._data =
          (OrderedQueueSpec.push ⟨l, c⟩ v)._data := by
  intro h
  have h1 := h (fun x y => y - x) [1] 2
  revert h1
  decide

/-- C9 amended: the comparator is not pluggable — `PriorityQueue`
always holds the fixed `MyComparator` (numeric subtraction) by value,
and every push behaves exactly as the spec's `OrderedQueue` does when
the stored comparator is `MyComparator`. -/
theorem fixed_comparator_push (vs : List Int) :
    (vs.foldl PriorityQueueInt.push ⟨[]⟩)._data =
      (vs.foldl OrderedQueueSpec.push (OrderedQueueSpec.mkQueue MyComparator))._data ∧
      (vs.foldl OrderedQueueSpec.push (OrderedQueueSpec.mkQueue MyComparator)).compare =
        MyComparator := by
  simp only [OrderedQueueSpec.mkQueue]
  rw [foldl_code_push, foldl_spec_push]
  exact ⟨rfl, rfl⟩

/-- C10: frame property of `push` — the new sequence is the old one
split at the insertion point with exactly one new copy of `v` in
between: every pre-existing element survives in its old relative
order, nothing else is added or removed, and the length grows by one. -/
theorem push_frame (cmp : α → α → Int) (l : List α) (v : α) :
    (∃ l1 l2, l = l1 ++ l2 ∧ push cmp l v = l1 ++ v :: l2) ∧
      (push cmp l v).length = l.length + 1 ∧
      (push cmp l v).Perm (v :: l) := by
  refine ⟨⟨l.takeWhile fun e => decide (cmp e v < 0),
    l.dropWhile fun e => decide (cmp e v < 0),
    ?_, push_eq_takeWhile cmp l v⟩, ?_, push_perm cmp l v⟩
  · rw [List.takeWhile_append_dropWhile]
  · rw [(push_perm cmp l v).length_eq]
    rfl

end PQ
